import Mathlib

/-!
# prom-rule-reloader: change detection, fingerprint store and publish step

A shallow embedding of `main.go` (`ruleFetcher` and its methods
`configMapsChanged`, `updateLastHash`, `refresh`, `Refresh`).

The external collaborators the Go code calls (`json.Marshal`,
`sha256.Sum256`, `rulefmt.Parse`) are taken as parameters, bundled in `Env`.
The filesystem the publish step works on is an explicit state: the directories that
exist, by resolved path, with the files in them; I/O faults come from an oracle.
-/

namespace PromRuleReloader

/-- Byte strings, as produced by `json.Marshal`. -/
abbrev Bytes := List Nat

/-- Digests, the `[sha256.Size]byte` values held in `lastHash`. -/
abbrev Digest := List Nat

/-- The part of `v1.ConfigMap` the code reads directly: `ObjectMeta.Namespace`,
`ObjectMeta.Name` and `Data`.  `Data` is a Go map; it is listed here in the order in
which `range cm.Data` visits it. -/
structure ConfigMap where
  Namespace : String
  Name : String
  Data : List (String × String)
deriving DecidableEq, Repr

/-- External functions used by the code.
* `marshal` is `json.Marshal` on a config map (`.error` is a non-nil `err`);
* `sum256` is `sha256.Sum256`;
* `parse` gives the error list `errs` returned by `rulefmt.Parse`. -/
structure Env where
  marshal : ConfigMap → Except String Bytes
  sum256 : Bytes → Digest
  parse : String → List String

/-- The Go type `map[string]map[string][sha256.Size]byte`: a key that is not
present is `none`. -/
abbrev HashMap2 := String → Option (String → Option Digest)

/-- The fields of `ruleFetcher` the methods below read and write (`client` and
`cmLister` are handles to the cluster and are not state of this model). -/
structure ruleFetcher where
  outDir : String
  lastHash : HashMap2
  lastConfigMapCount : Int

/-- Constructor `newRuleFetcher`: `lastHash` is a fresh empty map and
`lastConfigMapCount` has the zero value. -/
def newRuleFetcher (outDir : String) : ruleFetcher :=
  { outDir := outDir, lastHash := fun _ => none, lastConfigMapCount := 0 }

/-- The comma-ok lookup `rf.lastHash[ns][name]`: indexing a missing namespace
yields a nil inner map, and indexing a nil map reports `ok = false`. -/
def lookupHash (m : HashMap2) (ns name : String) : Option Digest :=
  match m ns with
  | none => none
  | some inner => inner name

/-- The statement `rf.lastHash[ns] = make(map[string][sha256.Size]byte)`. -/
def makeInner (m : HashMap2) (ns : String) : HashMap2 :=
  fun k => if k = ns then some (fun _ => none) else m k

/-- The statement `rf.lastHash[ns][name] = h`, for a namespace whose inner map
exists (on a missing inner map the model leaves the map as it is; the code
creates the inner map first). -/
def setHash (m : HashMap2) (ns name : String) (h : Digest) : HashMap2 :=
  match m ns with
  | none => m
  | some inner => fun k => if k = ns then some (fun n => if n = name then some h else inner n) else m k

/-- The loop of `configMapsChanged` (the `for _, cm := range cms` part), with
its three early returns. The result is the Go pair `(bool, error)`. -/
def configMapsChangedLoop (env : Env) (m : HashMap2) : List ConfigMap → Bool × Option String
  | [] => (false, none)
  | cm :: rest =>
    match lookupHash m cm.Namespace cm.Name with
    | none => (true, none)
    | some lastHash =>
      match env.marshal cm with
      | .error err => (false, some ("couldn't marshal configmap: " ++ err))
      | .ok b =>
        if lastHash ≠ env.sum256 b then (true, none)
        else configMapsChangedLoop env m rest

/-- Method `configMapsChanged`: the count comparison, then the loop. The method only
reads its receiver, so the embedding is a function of the receiver. -/
def configMapsChanged (env : Env) (rf : ruleFetcher) (cms : List ConfigMap) : Bool × Option String :=
  if rf.lastConfigMapCount ≠ (cms.length : Int) then (true, none)
  else configMapsChangedLoop env rf.lastHash cms

/-- The loop of `updateLastHash`: it writes into `lastHash` record by record and
returns at the first record whose serialization fails. -/
def updateLastHashLoop (env : Env) : HashMap2 → List ConfigMap → Option String × HashMap2
  | m, [] => (none, m)
  | m, cm :: rest =>
    match env.marshal cm with
    | .error err => (some ("couldn't marshal configmap: " ++ err), m)
    | .ok b =>
      let h := env.sum256 b
      let m1 := if (m cm.Namespace).isNone then makeInner m cm.Namespace else m
      updateLastHashLoop env (setHash m1 cm.Namespace cm.Name h) rest

/-- Method `updateLastHash`: the returned pair is the Go `error` and the receiver
after the call. `lastConfigMapCount` is assigned only after the loop has finished. -/
def updateLastHash (env : Env) (rf : ruleFetcher) (cms : List ConfigMap) : Option String × ruleFetcher :=
  match updateLastHashLoop env rf.lastHash cms with
  | (some err, m) => (some err, { rf with lastHash := m })
  | (none, m) => (none, { rf with lastHash := m, lastConfigMapCount := (cms.length : Int) })

/-- The identity `(namespace, name)` of a config map. -/
def ident (cm : ConfigMap) : String × String := (cm.Namespace, cm.Name)

/-! ## The filesystem and the publish step -/

/-- A resolved path: the names from the root down to a directory. -/
abbrev Path := List String

/-- The regular files directly in a directory: file name to content (a name that is
not present is `none`). -/
abbrev Dir := String → Option String

/-- The filesystem: the directories that exist, by resolved path, each with its regular
files. A subdirectory is a path of its own. -/
abbrev FS := Path → Option Dir

/-- Splits a path string at the separators `/`. -/
def splitSlash : List Char → List (List Char)
  | [] => [[]]
  | c :: cs =>
    if c = '/' then [] :: splitSlash cs
    else
      match splitSlash cs with
      | [] => [[c]]
      | x :: xs => (c :: x) :: xs

/-- One path element applied to the path resolved so far: an empty element and `.` stay
where they are, `..` goes up one directory, a name goes down into it. -/
def walk (p : Path) (c : String) : Path :=
  if c = "" ∨ c = "." then p else if c = ".." then p.dropLast else p ++ [c]

/-- Resolution of a path string, element by element, as `filepath.Clean` and the kernel
do when there is no symbolic link and the directories left through `..` exist. A relative
path is read from the working directory, which the model takes as its root. -/
def resolve (s : String) : Path :=
  ((splitSlash s.toList).map String.mk).foldl walk []

/-- The parent directory and the last name of a resolved path (`none` for the root). -/
def splitLast (p : Path) : Option (Path × String) :=
  match p.reverse with
  | [] => none
  | b :: r => some (r.reverse, b)

/-- Whether a regular file lies on the way down `rest` from directory `q`. -/
def fileOnPath (fs : FS) : Path → Path → Bool
  | _, [] => false
  | q, c :: rest =>
    (match fs q with
      | some d => (d c).isSome
      | none => false) || fileOnPath fs (q ++ [c]) rest

/-- Go's `endsWithDot`: the path is `.` or ends in `/.`. -/
def endsWithDot (s : String) : Bool :=
  decide (s = ".") || decide (s.toList.reverse.take 2 = ['.', '/'])

/-- Removal of the tree at `p`: the directory `p`, everything below it, and the regular
file of that name in the parent directory. -/
def removeTree (p : Path) (fs : FS) : FS := fun q =>
  if p.isPrefixOf q then none
  else
    match splitLast p with
    | none => fs q
    | some (parent, base) =>
      if q = parent then (fs q).map (fun d f => if f = base then none else d f) else fs q

/-- The filesystem calls issued by `refresh`, with the path strings they are given. -/
inductive FsOp where
  | mkdirAll (dir : String)
  | writeFile (dir name content : String)
  | removeAll (dir : String)
  | rename (src dst : String)
deriving DecidableEq, Repr

/-- Effect of one filesystem call that meets no I/O fault.
* `os.MkdirAll` keeps an existing directory (with its files), and otherwise creates the
  directory and its missing parents, unless a regular file is in the way;
* `ioutil.WriteFile` on `filepath.Join(dir, name)` creates or truncates the file; it
  fails when the parent directory of the joined path is missing or the joined path is a
  directory;
* `os.RemoveAll` removes the tree at the path and succeeds when nothing is there; it
  does nothing on the empty path and refuses a path that ends in `.`;
* `os.Rename` of a directory moves the tree; it fails when the source is missing, when
  the parent of the target is missing, when the target exists, or when the target lies
  inside the source (the kernel also accepts an existing empty directory as target;
  `refresh` renames onto a path it has just removed). -/
def FsOp.run : FsOp → FS → Except String FS
  | .mkdirAll s, fs =>
    if s = "" then .error "no such file or directory"
    else if (fs (resolve s)).isSome then .ok fs
    else if fileOnPath fs [] (resolve s) then .error "not a directory"
    else .ok (fun q =>
      if q.isPrefixOf (resolve s) && (fs q).isNone then some (fun _ => none) else fs q)
  | .writeFile dir name content, fs =>
    match splitLast (resolve (dir ++ "/" ++ name)) with
    | none => .error "is a directory"
    | some (parent, base) =>
      match fs parent with
      | none => .error "no such file or directory"
      | some d =>
        if (fs (parent ++ [base])).isSome then .error "is a directory"
        else .ok (fun q =>
          if q = parent then some (fun f => if f = base then some content else d f) else fs q)
  | .removeAll s, fs =>
    if s = "" then .ok fs
    else if endsWithDot s then .error "invalid argument"
    else .ok (removeTree (resolve s) fs)
  | .rename s t, fs =>
    if s = "" ∨ t = "" then .error "no such file or directory"
    else
      match fs (resolve s) with
      | none => .error "no such file or directory"
      | some _ =>
        match splitLast (resolve t) with
        | none => .error "device or resource busy"
        | some (parent, base) =>
          match fs parent with
          | none => .error "no such file or directory"
          | some d =>
            if (d base).isSome then .error "not a directory"
            else if (fs (resolve t)).isSome then .error "file exists"
            else if (resolve s).isPrefixOf (resolve t) then .error "invalid argument"
            else .ok (fun q =>
              if (resolve t).isPrefixOf q then fs (resolve s ++ q.drop (resolve t).length)
              else if (resolve s).isPrefixOf q then none
              else fs q)

/-- I/O faults, as an oracle. An I/O error is a failure that does not follow from the
directories and files present (permissions, free space, limits on names and paths).
`fails` marks the calls that fail with an I/O error;
`keepDir` and `keepFile` say what a failing `os.RemoveAll` has not removed and which
missing parents a failing `os.MkdirAll` has created; `torn` is what a failing
`ioutil.WriteFile` leaves in the file (`none`: the file is not touched). -/
structure Faults where
  fails : FsOp → Bool
  keepDir : Path → Bool
  keepFile : Path → String → Bool
  torn : FsOp → Option String

/-- What a call that fails with an I/O error leaves behind. `os.RemoveAll` has removed
what it could, `os.MkdirAll` may have created parents, `ioutil.WriteFile` may have
written part of the file, `os.Rename` has done nothing. -/
def FsOp.afterFault (ft : Faults) : FsOp → FS → FS
  | .mkdirAll s, fs =>
    if s = "" ∨ (fs (resolve s)).isSome ∨ fileOnPath fs [] (resolve s) then fs
    else fun q =>
      if q.isPrefixOf (resolve s) && decide (q ≠ resolve s) && (fs q).isNone && ft.keepDir q
      then some (fun _ => none) else fs q
  | .writeFile dir name content, fs =>
    match ft.torn (.writeFile dir name content) with
    | none => fs
    | some part =>
      match FsOp.run (.writeFile dir name part) fs with
      | .error _ => fs
      | .ok fs1 => fs1
  | .removeAll s, fs =>
    if s = "" ∨ endsWithDot s then fs
    else fun q =>
      if (resolve s).isPrefixOf q then
        (if ft.keepDir q then (fs q).map (fun d f => if ft.keepFile q f then d f else none)
         else none)
      else fs q
  | .rename _ _, fs => fs

/-- One filesystem call under a fault oracle: the returned error, and the filesystem
after the call. A call that fails for a reason of `FsOp.run` has no effect. -/
def step (ft : Faults) (op : FsOp) (fs : FS) : Option String × FS :=
  if ft.fails op then (some "input/output error", op.afterFault ft fs)
  else
    match op.run fs with
    | .error err => (some err, fs)
    | .ok fs1 => (none, fs1)

/-- Runs calls in order and stops at the first one that fails, as the
`if err != nil { return err }` checks do. The result is the error (if any) and the
filesystem reached. -/
def runOps (ft : Faults) : List FsOp → FS → Option String × FS
  | [], fs => (none, fs)
  | op :: ops, fs =>
    match step ft op fs with
    | (some err, fs1) => (some err, fs1)
    | (none, fs1) => runOps ft ops fs1

/-- The file name `fmt.Sprintf("%s_%s_%s", cm.ObjectMeta.Namespace, cm.ObjectMeta.Name, fn)`. -/
def fileName (cm : ConfigMap) (fn : String) : String :=
  cm.Namespace ++ "_" ++ cm.Name ++ "_" ++ fn

/-- The inner loop of `refresh` over `cm.Data`: the `(file name, content)` pairs that
get written, i.e. those whose content `rulefmt.Parse` accepts (`len(errs) > 0` skips). -/
def acceptedEntries (env : Env) (cm : ConfigMap) : List (String × String) → List (String × String)
  | [] => []
  | (fn, content) :: rest =>
    if (env.parse content).length > 0 then acceptedEntries env cm rest
    else (fileName cm fn, content) :: acceptedEntries env cm rest

/-- The outer loop of `refresh` over `cms`: every file written, in the order written. -/
def acceptedFiles (env : Env) : List ConfigMap → List (String × String)
  | [] => []
  | cm :: rest => acceptedEntries env cm cm.Data ++ acceptedFiles env rest

/-- The `ioutil.WriteFile` calls of `refresh` into the staging directory. -/
def writeOps (env : Env) (tmpdir : String) (cms : List ConfigMap) : List FsOp :=
  (acceptedFiles env cms).map (fun e => FsOp.writeFile tmpdir e.1 e.2)

/-- The filesystem calls of `refresh`, in source order: `os.MkdirAll(tmpdir)`, the
writes, `os.RemoveAll(rf.outDir)`, `os.Rename(tmpdir, rf.outDir)`. -/
def refreshOps (env : Env) (outDir : String) (cms : List ConfigMap) : List FsOp :=
  FsOp.mkdirAll (outDir ++ ".tmp") ::
    (writeOps env (outDir ++ ".tmp") cms ++
      [FsOp.removeAll outDir, FsOp.rename (outDir ++ ".tmp") outDir])

/-- The deferred `os.RemoveAll(tmpdir)`, whose error is discarded. -/
def deferredRemove (ft : Faults) (tmpdir : String) (fs : FS) : FS :=
  (step ft (FsOp.removeAll tmpdir) fs).2

/-- Method `refresh`. When `os.MkdirAll` fails it returns before the `defer` is
registered; on every later exit the deferred `os.RemoveAll(tmpdir)` runs. -/
def refresh (env : Env) (ft : Faults) (outDir : String) (cms : List ConfigMap)
    (fs : FS) : Option String × FS :=
  let tmpdir := outDir ++ ".tmp"
  match step ft (FsOp.mkdirAll tmpdir) fs with
  | (some err, fs1) => (some err, fs1)
  | (none, fs1) =>
    match runOps ft
        (writeOps env tmpdir cms ++ [FsOp.removeAll outDir, FsOp.rename tmpdir outDir]) fs1 with
    | (err, fs2) => (err, deferredRemove ft tmpdir fs2)

/-- The content of a directory after the given files have been written into it, in
order (a later write of the same name replaces the earlier one). -/
def writeAll (d : Dir) : List (String × String) → Dir
  | [] => d
  | e :: rest => writeAll (fun f => if f = e.1 then some e.2 else d f) rest

/-- No I/O fault at all. -/
def noFault : Faults :=
  { fails := fun _ => false, keepDir := fun _ => true, keepFile := fun _ _ => true,
    torn := fun _ => none }

/-- The filesystem an outside reader sees when `refresh` has run its first `k`
filesystem calls, without I/O fault, and no more. -/
def stateAfter (env : Env) (outDir : String) (cms : List ConfigMap) (fs : FS) (k : Nat) : FS :=
  (runOps noFault ((refreshOps env outDir cms).take k) fs).2

/-- Two resolved paths neither of which is the other or lies inside the other. -/
def apart (p q : Path) : Bool := !p.isPrefixOf q && !q.isPrefixOf p

/-- A name without path separator. -/
def plainName (n : String) : Bool := !n.toList.contains '/'

/-- A record without the entries `rulefmt.Parse` rejects. -/
def dropRejected (env : Env) (cm : ConfigMap) : ConfigMap :=
  { cm with Data := cm.Data.filter (fun e => decide ((env.parse e.2).length = 0)) }

/-! ## One tick of the reconciler -/

/-- Method `Refresh`, one tick. `listed` is the result of `rf.cmLister.List`, `post`
the result of `http.Post` (the status code, or the transport error). The result is the
returned error, the receiver after the tick and the filesystem after the tick. -/
def Refresh (env : Env) (ft : Faults) (listed : Except String (List ConfigMap))
    (post : Except String Int) (rf : ruleFetcher) (fs : FS) : Option String × ruleFetcher × FS :=
  match listed with
  | .error err => (some err, rf, fs)
  | .ok cms =>
    match configMapsChanged env rf cms with
    | (_, some err) => (some ("couldn't determine if configmaps changed: " ++ err), rf, fs)
    | (false, none) => (none, rf, fs)
    | (true, none) =>
      match refresh env ft rf.outDir cms fs with
      | (some err, fs1) => (some ("couldn't refresh rules: " ++ err), rf, fs1)
      | (none, fs1) =>
        match post with
        | .error err => (some ("error reloading prometheus: " ++ err), rf, fs1)
        | .ok status =>
          if status ≠ 200 then (some ("couldn't reload prometheus: status " ++ toString status), rf, fs1)
          else
            match updateLastHash env rf cms with
            | (some err, rf1) => (some ("couldn't update last hash: " ++ err), rf1, fs1)
            | (none, rf1) => (none, rf1, fs1)

/-! ## Sample collaborators and inputs

Concrete stand-ins for the external functions, used to evaluate the code on concrete
inputs. The records are those of `main_test.go`. -/

/-- Code points of a string, as bytes. -/
def utf8 (s : String) : Bytes := s.toList.map Char.toNat

/-- An injective stand-in encoding of a config map. -/
def encode (cm : ConfigMap) : Bytes :=
  utf8 cm.Namespace ++ 0 :: (utf8 cm.Name ++ 0 ::
    cm.Data.foldr (fun e acc => utf8 e.1 ++ 0 :: (utf8 e.2 ++ 0 :: acc)) [])

/-- The verdict of `rulefmt.Parse` on the contents used in this development: the empty
document and `groups: []` are rule files without error, `not a rule file` is reported
as an error. Any other content is reported as an error here, which need not be the
verdict of `rulefmt.Parse`. -/
def sampleParse (content : String) : List String :=
  if content = "" ∨ content = "groups: []" then [] else ["yaml: unmarshal errors"]

/-- Collaborators whose serialization never fails. -/
def sampleEnv : Env :=
  { marshal := fun cm => .ok (encode cm), sum256 := fun b => b, parse := sampleParse }

/-- Collaborators whose serialization fails on the records named `broken`. -/
def brittleEnv : Env :=
  { marshal := fun cm =>
      if cm.Name = "broken" then .error "json: error calling MarshalJSON" else .ok (encode cm),
    sum256 := fun b => b, parse := sampleParse }

/-- Record `test1` of `main_test.go`. -/
def test1 : ConfigMap := { Namespace := "test_namespace_1", Name := "test1", Data := [] }

/-- Record `test2` of `main_test.go`. -/
def test2 : ConfigMap := { Namespace := "test_namespace_1", Name := "test2", Data := [] }

/-- Record `test3` of `main_test.go`. -/
def test3 : ConfigMap := { Namespace := "test_namespace_3", Name := "test3", Data := [] }

/-- Record `test1changed` of `main_test.go`. -/
def test1changed : ConfigMap :=
  { Namespace := "test_namespace_1", Name := "test1", Data := [("some_key", "some_value")] }

/-- A record on which `brittleEnv` fails to serialize. -/
def broken : ConfigMap := { Namespace := "test_namespace_1", Name := "broken", Data := [] }

/-- The fault oracle under which exactly the `os.Rename` calls fail. -/
def renameFails : Faults :=
  { fails := fun op =>
      match op with
      | .rename _ _ => true
      | _ => false,
    keepDir := fun _ => true, keepFile := fun _ _ => true, torn := fun _ => none }

/-- A record with one rule file `rulefmt.Parse` accepts and one it rejects. -/
def mixedRecord : ConfigMap :=
  { Namespace := "monitoring", Name := "rules",
    Data := [("bad.rules", "not a rule file"), ("good.rules", "groups: []")] }

/-- A filesystem in which `/etc/rules` holds one published file and no staging
directory exists. -/
def publishedFS : FS := fun p =>
  if p = ["etc", "rules"] then some (fun f => if f = "old.rules" then some "groups: old" else none)
  else if p = ["etc"] ∨ p = [] then some (fun _ => none)
  else none

/-- A filesystem in which the staging directory `/etc/rules.tmp` exists already and
holds a file. -/
def staleStagingFS : FS := fun p =>
  if p = ["etc", "rules.tmp"] then
    some (fun f => if f = "stale.rules" then some "groups: stale" else none)
  else if p = ["etc"] ∨ p = [] then some (fun _ => none)
  else none

/-- Two records whose single entries get the same file name `team_a_rules_x.rules`. -/
def collideA : ConfigMap :=
  { Namespace := "team_a", Name := "rules", Data := [("x.rules", "groups: []")] }

/-- See `collideA`. -/
def collideB : ConfigMap :=
  { Namespace := "team", Name := "a_rules", Data := [("x.rules", "")] }

/-- A record whose entry name holds path separators and `..`: `filepath.Join` of
`/etc/rules.tmp` and its file name is `/etc/rules/evil.rules`. -/
def escaping : ConfigMap :=
  { Namespace := "monitoring", Name := "rules",
    Data := [("x/../../rules/evil.rules", "groups: []")] }

/-! ## Store lemmas -/

theorem lookupHash_put (m : HashMap2) (ns name : String) (h : Digest) (ns1 name1 : String) :
    lookupHash (setHash (if (m ns).isNone then makeInner m ns else m) ns name h) ns1 name1 =
      if ns1 = ns ∧ name1 = name then some h else lookupHash m ns1 name1 := by
  unfold lookupHash setHash makeInner
  cases hm : m ns with
  | none =>
    by_cases h1 : ns1 = ns
    · subst h1
      by_cases h2 : name1 = name <;> simp [hm, h2]
    · simp [h1]
  | some inner =>
    by_cases h1 : ns1 = ns
    · subst h1
      by_cases h2 : name1 = name <;> simp [hm, h2]
    · simp [hm, h1]

theorem updateLastHashLoop_lookup_other (env : Env) (ns name : String) :
    ∀ (R : List ConfigMap) (m : HashMap2), (∀ cm ∈ R, ident cm ≠ (ns, name)) →
      lookupHash (updateLastHashLoop env m R).2 ns name = lookupHash m ns name := by
  intro R
  induction R with
  | nil => intro m _; rfl
  | cons cm rest ih =>
    intro m hne
    have hcm : ident cm ≠ (ns, name) := hne cm (List.mem_cons_self _ _)
    have hrest : ∀ c ∈ rest, ident c ≠ (ns, name) := fun c hc => hne c (List.mem_cons_of_mem _ hc)
    unfold updateLastHashLoop
    cases hmar : env.marshal cm with
    | error e => rfl
    | ok b =>
      simp only []
      rw [ih _ hrest, lookupHash_put]
      have : ¬ (ns = cm.Namespace ∧ name = cm.Name) := by
        rintro ⟨h1, h2⟩
        exact hcm (by simp [ident, h1, h2])
      simp [this]

theorem updateLastHashLoop_ok_lookup (env : Env) :
    ∀ (R : List ConfigMap) (m : HashMap2), (R.map ident).Nodup →
      (updateLastHashLoop env m R).1 = none →
      ∀ cm ∈ R, ∃ b, env.marshal cm = .ok b ∧
        lookupHash (updateLastHashLoop env m R).2 cm.Namespace cm.Name = some (env.sum256 b) := by
  intro R
  induction R with
  | nil => intro m _ _ cm hcm; cases hcm
  | cons c rest ih =>
    intro m hnd hok cm hcm
    rw [List.map_cons, List.nodup_cons] at hnd
    unfold updateLastHashLoop at hok ⊢
    cases hmar : env.marshal c with
    | error e => simp [hmar] at hok
    | ok b =>
      simp only [hmar] at hok ⊢
      rcases List.mem_cons.mp hcm with rfl | hin
      · refine ⟨b, hmar, ?_⟩
        rw [updateLastHashLoop_lookup_other env cm.Namespace cm.Name rest _ ?_, lookupHash_put]
        · simp
        · intro c hc heq
          exact hnd.1 (List.mem_map.mpr ⟨c, hc, heq⟩)
      · exact ih _ hnd.2 hok cm hin

theorem updateLastHashLoop_ok_of_serializable (env : Env) :
    ∀ (R : List ConfigMap) (m : HashMap2), (∀ cm ∈ R, ∃ b, env.marshal cm = .ok b) →
      (updateLastHashLoop env m R).1 = none := by
  intro R
  induction R with
  | nil => intro m _; rfl
  | cons c rest ih =>
    intro m hser
    obtain ⟨b, hb⟩ := hser c (List.mem_cons_self _ _)
    unfold updateLastHashLoop
    simp only [hb]
    exact ih _ (fun cm hcm => hser cm (List.mem_cons_of_mem _ hcm))

theorem configMapsChangedLoop_of_match (env : Env) (m : HashMap2) :
    ∀ R : List ConfigMap,
      (∀ cm ∈ R, ∃ b, env.marshal cm = .ok b ∧
        lookupHash m cm.Namespace cm.Name = some (env.sum256 b)) →
      configMapsChangedLoop env m R = (false, none) := by
  intro R
  induction R with
  | nil => intro _; rfl
  | cons c rest ih =>
    intro h
    obtain ⟨b, hb, hl⟩ := h c (List.mem_cons_self _ _)
    unfold configMapsChangedLoop
    simp only [hl, hb, ne_eq, not_true_eq_false, ite_false]
    exact ih (fun cm hcm => h cm (List.mem_cons_of_mem _ hcm))

theorem updateLastHash_fst (env : Env) (rf : ruleFetcher) (R : List ConfigMap) :
    (updateLastHash env rf R).1 = (updateLastHashLoop env rf.lastHash R).1 := by
  unfold updateLastHash
  rcases h : updateLastHashLoop env rf.lastHash R with ⟨_ | e, m⟩ <;> rfl

theorem updateLastHash_lastHash (env : Env) (rf : ruleFetcher) (R : List ConfigMap) :
    (updateLastHash env rf R).2.lastHash = (updateLastHashLoop env rf.lastHash R).2 := by
  unfold updateLastHash
  rcases h : updateLastHashLoop env rf.lastHash R with ⟨_ | e, m⟩ <;> rfl

theorem updateLastHash_count_ok (env : Env) (rf : ruleFetcher) (R : List ConfigMap)
    (hok : (updateLastHash env rf R).1 = none) :
    (updateLastHash env rf R).2.lastConfigMapCount = (R.length : Int) := by
  unfold updateLastHash at hok ⊢
  rcases h : updateLastHashLoop env rf.lastHash R with ⟨_ | e, m⟩
  · rfl
  · simp [h] at hok

theorem updateLastHash_count_err (env : Env) (rf : ruleFetcher) (R : List ConfigMap)
    (herr : (updateLastHash env rf R).1 ≠ none) :
    (updateLastHash env rf R).2.lastConfigMapCount = rf.lastConfigMapCount := by
  unfold updateLastHash at herr ⊢
  rcases h : updateLastHashLoop env rf.lastHash R with ⟨_ | e, m⟩
  · simp [h] at herr
  · rfl

theorem configMapsChangedLoop_of_mismatch (env : Env) (m : HashMap2) :
    ∀ R : List ConfigMap, (∀ cm ∈ R, ∃ b, env.marshal cm = .ok b) →
      (∃ cm ∈ R, ∃ b, env.marshal cm = .ok b ∧
        lookupHash m cm.Namespace cm.Name ≠ some (env.sum256 b)) →
      configMapsChangedLoop env m R = (true, none) := by
  intro R
  induction R with
  | nil => rintro _ ⟨cm, hcm, _⟩; cases hcm
  | cons c rest ih =>
    intro hser hex
    obtain ⟨b0, hb0⟩ := hser c (List.mem_cons_self _ _)
    unfold configMapsChangedLoop
    cases hl : lookupHash m c.Namespace c.Name with
    | none => rfl
    | some d =>
      simp only [hb0]
      by_cases hd : d = env.sum256 b0
      · simp only [hd, ne_eq, not_true_eq_false, ite_false]
        apply ih (fun cm hcm => hser cm (List.mem_cons_of_mem _ hcm))
        obtain ⟨cm, hcm, b, hb, hne⟩ := hex
        rcases List.mem_cons.mp hcm with rfl | hin
        · rw [hb0] at hb
          cases hb
          exact absurd (by rw [hl, hd]) hne
        · exact ⟨cm, hin, b, hb, hne⟩
      · simp [hd]

theorem updateLastHashLoop_append_error (env : Env) (bad : ConfigMap) (post : List ConfigMap)
    (e : String) (hbad : env.marshal bad = .error e) :
    ∀ (pre : List ConfigMap) (m : HashMap2), (∀ cm ∈ pre, ∃ b, env.marshal cm = .ok b) →
      updateLastHashLoop env m (pre ++ bad :: post) =
        (some ("couldn't marshal configmap: " ++ e), (updateLastHashLoop env m pre).2) := by
  intro pre
  induction pre with
  | nil =>
    intro m _
    simp [updateLastHashLoop, hbad]
  | cons c rest ih =>
    intro m hser
    obtain ⟨b, hb⟩ := hser c (List.mem_cons_self _ _)
    simp only [List.cons_append, updateLastHashLoop, hb]
    exact ih _ (fun cm hcm => hser cm (List.mem_cons_of_mem _ hcm))

theorem exists_first_failing (env : Env) :
    ∀ R : List ConfigMap, (∃ cm ∈ R, ∃ e, env.marshal cm = .error e) →
      ∃ pre bad post, R = pre ++ bad :: post ∧
        (∀ cm ∈ pre, ∃ b, env.marshal cm = .ok b) ∧ ∃ e, env.marshal bad = .error e := by
  intro R
  induction R with
  | nil => rintro ⟨cm, hcm, _⟩; cases hcm
  | cons c rest ih =>
    rintro ⟨cm, hcm, e, he⟩
    cases hc : env.marshal c with
    | error e0 => exact ⟨[], c, rest, rfl, by simp, e0, hc⟩
    | ok b =>
      have hin : cm ∈ rest := by
        rcases List.mem_cons.mp hcm with rfl | hin
        · rw [hc] at he; cases he
        · exact hin
      obtain ⟨pre, bad, post, hR, hpre, hbad⟩ := ih ⟨cm, hin, e, he⟩
      refine ⟨c :: pre, bad, post, by simp [hR], ?_, hbad⟩
      intro x hx
      rcases List.mem_cons.mp hx with rfl | hx
      · exact ⟨b, hc⟩
      · exact hpre x hx

theorem updateLastHash_ok_effect (env : Env) (rf : ruleFetcher) (R : List ConfigMap)
    (hnd : (R.map ident).Nodup) (hser : ∀ cm ∈ R, ∃ b, env.marshal cm = .ok b) :
    (updateLastHash env rf R).1 = none ∧
    (updateLastHash env rf R).2.lastConfigMapCount = (R.length : Int) ∧
    ∀ cm ∈ R, ∃ b, env.marshal cm = .ok b ∧
      lookupHash (updateLastHash env rf R).2.lastHash cm.Namespace cm.Name
        = some (env.sum256 b) := by
  have hok : (updateLastHash env rf R).1 = none := by
    rw [updateLastHash_fst]
    exact updateLastHashLoop_ok_of_serializable env R rf.lastHash hser
  refine ⟨hok, updateLastHash_count_ok env rf R hok, ?_⟩
  rw [updateLastHash_lastHash]
  rw [updateLastHash_fst] at hok
  exact updateLastHashLoop_ok_lookup env R rf.lastHash hnd hok

/-! ## Path lemmas -/

theorem splitSlash_ne_nil : ∀ cs : List Char, splitSlash cs ≠ [] := by
  intro cs
  induction cs with
  | nil => simp [splitSlash]
  | cons c cs ih =>
    unfold splitSlash
    by_cases hc : c = '/'
    · simp [hc]
    · simp only [hc, ite_false]
      cases h : splitSlash cs with
      | nil => simp
      | cons x xs => simp

theorem splitSlash_noSlash : ∀ cs : List Char, '/' ∉ cs → splitSlash cs = [cs] := by
  intro cs
  induction cs with
  | nil => intro _; rfl
  | cons c cs ih =>
    intro h
    have hc : c ≠ '/' := fun e => h (by simp [e])
    have hcs : '/' ∉ cs := fun e => h (List.mem_cons_of_mem _ e)
    unfold splitSlash
    simp [hc, ih hcs]

theorem splitSlash_append_slash (b : List Char) :
    ∀ a : List Char, splitSlash (a ++ '/' :: b) = splitSlash a ++ splitSlash b := by
  intro a
  induction a with
  | nil => simp [splitSlash]
  | cons c a ih =>
    by_cases hc : c = '/'
    · simp [splitSlash, hc, ih]
    · simp only [List.cons_append, splitSlash, hc, ite_false]
      change (match splitSlash (a ++ '/' :: b) with
        | [] => [[c]]
        | x :: xs => (c :: x) :: xs) = _
      rw [ih]
      cases h : splitSlash a with
      | nil => exact absurd h (splitSlash_ne_nil a)
      | cons x xs => simp

theorem resolve_join (dir name : String) (hplain : '/' ∉ name.toList)
    (h0 : name ≠ "") (h1 : name ≠ ".") (h2 : name ≠ "..") :
    resolve (dir ++ "/" ++ name) = resolve dir ++ [name] := by
  unfold resolve
  have hl : (dir ++ "/" ++ name).toList = dir.toList ++ '/' :: name.toList := by
    simp [String.toList]
  rw [hl, splitSlash_append_slash, splitSlash_noSlash _ hplain, List.map_append,
    List.foldl_append]
  simp only [List.map_cons, List.map_nil, List.foldl_cons, List.foldl_nil]
  have hmk : String.mk name.toList = name := rfl
  rw [hmk]
  unfold walk
  simp [h0, h1, h2]

theorem fileName_has_underscore (cm : ConfigMap) (fn : String) :
    '_' ∈ (fileName cm fn).toList := by
  simp [fileName, String.toList]

theorem resolve_join_fileName (dir : String) (cm : ConfigMap) (fn : String)
    (hplain : plainName (fileName cm fn) = true) :
    resolve (dir ++ "/" ++ fileName cm fn) = resolve dir ++ [fileName cm fn] := by
  have hu := fileName_has_underscore cm fn
  have hp : '/' ∉ (fileName cm fn).toList := by
    simpa [plainName] using hplain
  apply resolve_join dir _ hp
  · intro h; rw [h] at hu; simp [String.toList] at hu
  · intro h; rw [h] at hu; simp [String.toList] at hu
  · intro h; rw [h] at hu; simp [String.toList] at hu

theorem apart_iff (p q : Path) : apart p q = true ↔ ¬ p <+: q ∧ ¬ q <+: p := by
  unfold apart
  rw [Bool.and_eq_true, Bool.not_eq_true', Bool.not_eq_true', ← Bool.not_eq_true,
    ← Bool.not_eq_true, List.isPrefixOf_iff_prefix, List.isPrefixOf_iff_prefix]

theorem not_prefix_append {p q : Path} (h1 : ¬ p <+: q) (h2 : ¬ q <+: p) (r : Path) :
    ¬ p <+: q ++ r := by
  intro h
  rcases List.prefix_or_prefix_of_prefix h (List.prefix_append q r) with h | h
  · exact h1 h
  · exact h2 h

theorem longer_not_below {p q : Path} (h1 : ¬ p <+: q) (r : Path) : ¬ p ++ r <+: q :=
  fun h => h1 ((List.prefix_append p r).trans h)

theorem splitLast_eq {p parent : Path} {base : String} (h : splitLast p = some (parent, base)) :
    p = parent ++ [base] := by
  unfold splitLast at h
  cases hr : p.reverse with
  | nil => simp [hr] at h
  | cons b r =>
    simp only [hr, Option.some.injEq, Prod.mk.injEq] at h
    have : p = (b :: r).reverse := by rw [← hr, List.reverse_reverse]
    rw [this, ← h.1, ← h.2]
    simp

theorem splitLast_concat (p : Path) (b : String) : splitLast (p ++ [b]) = some (p, b) := by
  simp [splitLast]

theorem writeAll_lookup (f c : String) :
    ∀ (files : List (String × String)) (d0 : Dir), (files.map Prod.fst).Nodup →
      (writeAll d0 files f = some c ↔
        ((f, c) ∈ files ∨ (f ∉ files.map Prod.fst ∧ d0 f = some c))) := by
  intro files
  induction files with
  | nil => intro d0 _; simp [writeAll]
  | cons e rest ih =>
    intro d0 hnd
    rw [List.map_cons, List.nodup_cons] at hnd
    rw [writeAll, ih _ hnd.2]
    obtain ⟨n, v⟩ := e
    by_cases hf : f = n
    · subst hf
      have hnot : ∀ x, (f, x) ∉ rest := fun x hx => hnd.1 (List.mem_map.mpr ⟨(f, x), hx, rfl⟩)
      have hnotin : f ∉ rest.map Prod.fst := hnd.1
      constructor
      · rintro (h | ⟨_, h⟩)
        · exact absurd h (hnot c)
        · simp only [ite_true, Option.some.injEq] at h
          subst h
          exact Or.inl (List.mem_cons_self _ _)
      · rintro (h | ⟨h, _⟩)
        · rcases List.mem_cons.mp h with h | h
          · cases h
            exact Or.inr ⟨hnotin, by simp⟩
          · exact absurd h (hnot c)
        · exact absurd (List.mem_cons_self _ _) h
    · have hne : (f, c) ≠ (n, v) := fun h => hf (congrArg Prod.fst h)
      simp only [List.mem_cons, hne, false_or, List.map_cons, not_or, hf, not_false_eq_true,
        true_and, ite_false]

theorem mem_acceptedEntries (env : Env) (cm : ConfigMap) (f c : String) :
    ∀ data : List (String × String),
      ((f, c) ∈ acceptedEntries env cm data ↔
        ∃ fn, (fn, c) ∈ data ∧ (env.parse c).length = 0 ∧ f = fileName cm fn) := by
  intro data
  induction data with
  | nil => simp [acceptedEntries]
  | cons e rest ih =>
    obtain ⟨fn0, c0⟩ := e
    unfold acceptedEntries
    by_cases hp : (env.parse c0).length > 0
    · simp only [hp, ite_true, ih, List.mem_cons, Prod.mk.injEq]
      constructor
      · rintro ⟨fn, hin, hz, hf⟩
        exact ⟨fn, Or.inr hin, hz, hf⟩
      · rintro ⟨fn, (⟨_, hc⟩ | hin), hz, hf⟩
        · subst hc
          omega
        · exact ⟨fn, hin, hz, hf⟩
    · simp only [hp, ite_false, List.mem_cons, Prod.mk.injEq, ih]
      constructor
      · rintro (⟨hf, hc⟩ | ⟨fn, hin, hz, hf⟩)
        · subst hc
          exact ⟨fn0, Or.inl ⟨rfl, rfl⟩, by omega, hf⟩
        · exact ⟨fn, Or.inr hin, hz, hf⟩
      · rintro ⟨fn, (⟨hfn, hc⟩ | hin), hz, hf⟩
        · subst hfn
          exact Or.inl ⟨hf, hc⟩
        · exact Or.inr ⟨fn, hin, hz, hf⟩

theorem mem_acceptedFiles (env : Env) (f c : String) :
    ∀ cms : List ConfigMap,
      ((f, c) ∈ acceptedFiles env cms ↔
        ∃ cm ∈ cms, ∃ fn, (fn, c) ∈ cm.Data ∧ (env.parse c).length = 0 ∧ f = fileName cm fn) := by
  intro cms
  induction cms with
  | nil => simp [acceptedFiles]
  | cons cm rest ih =>
    simp only [acceptedFiles, List.mem_append, mem_acceptedEntries, ih, List.mem_cons,
      exists_eq_or_imp]

/-! ## Filesystem lemmas -/

theorem step_ok {ft : Faults} {op : FsOp} {fs : FS} (h : (step ft op fs).1 = none) :
    ft.fails op = false ∧ op.run fs = .ok (step ft op fs).2 := by
  unfold step at h ⊢
  cases hf : ft.fails op with
  | true => simp [hf] at h
  | false =>
    cases hr : op.run fs with
    | error e => simp [hf, hr] at h
    | ok fs1 => simp

theorem runOps_cons_ok {ft : Faults} {op : FsOp} {ops : List FsOp} {fs : FS}
    (h : (runOps ft (op :: ops) fs).1 = none) :
    (step ft op fs).1 = none ∧ runOps ft (op :: ops) fs = runOps ft ops (step ft op fs).2 := by
  simp only [runOps] at h ⊢
  rcases hs : step ft op fs with ⟨_ | e, fs1⟩
  · simp
  · simp [hs] at h

theorem runOps_append_ok (ft : Faults) (b : List FsOp) :
    ∀ (a : List FsOp) (fs : FS), (runOps ft a fs).1 = none →
      runOps ft (a ++ b) fs = runOps ft b (runOps ft a fs).2 := by
  intro a
  induction a with
  | nil => intro fs _; rfl
  | cons op ops ih =>
    intro fs h
    have hc := runOps_cons_ok h
    rw [hc.2] at h ⊢
    rw [← ih _ h]
    simp only [List.cons_append, runOps]
    rcases hs : step ft op fs with ⟨_ | e, fs1⟩
    · rfl
    · rw [hs] at hc
      simp at hc

theorem runOps_ok_left (ft : Faults) (b : List FsOp) :
    ∀ (a : List FsOp) (fs : FS), (runOps ft (a ++ b) fs).1 = none →
      (runOps ft a fs).1 = none := by
  intro a
  induction a with
  | nil => intro fs _; rfl
  | cons op ops ih =>
    intro fs h
    simp only [List.cons_append, runOps] at h ⊢
    rcases hs : step ft op fs with ⟨_ | e, fs1⟩
    · simp only [hs] at h ⊢
      exact ih fs1 h
    · simp [hs] at h

theorem mkdirAll_ok {s : String} {fs fs1 : FS} (h : (FsOp.mkdirAll s).run fs = .ok fs1) :
    fs1 (resolve s) = some ((fs (resolve s)).getD (fun _ => none)) ∧
    ∀ q, ¬ q <+: resolve s → fs1 q = fs q := by
  simp only [FsOp.run] at h
  by_cases h0 : s = ""
  · simp [h0] at h
  · simp only [h0, ite_false] at h
    cases hd : fs (resolve s) with
    | some d =>
      simp only [hd, Option.isSome_some, ite_true, Except.ok.injEq] at h
      subst h
      simp [hd]
    | none =>
      simp only [hd, Option.isSome_none, Bool.false_eq_true, ite_false] at h
      cases hb : fileOnPath fs [] (resolve s) with
      | true => simp [hb] at h
      | false =>
        simp only [hb, Bool.false_eq_true, ite_false, Except.ok.injEq] at h
        subst h
        refine ⟨by simp [hd], fun q hq => ?_⟩
        have : q.isPrefixOf (resolve s) = false := by
          rw [← Bool.not_eq_true, List.isPrefixOf_iff_prefix]
          exact hq
        simp [this]

theorem writeFile_ok {dir name content : String} {fs fs1 : FS}
    (hres : resolve (dir ++ "/" ++ name) = resolve dir ++ [name])
    (h : (FsOp.writeFile dir name content).run fs = .ok fs1) :
    ∃ d, fs (resolve dir) = some d ∧
      fs1 = fun q =>
        if q = resolve dir then some (fun f => if f = name then some content else d f)
        else fs q := by
  simp only [FsOp.run, hres, splitLast_concat] at h
  cases hd : fs (resolve dir) with
  | none => simp [hd] at h
  | some d =>
    simp only [hd] at h
    cases hx : (fs (resolve dir ++ [name])).isSome with
    | true => simp [hx] at h
    | false =>
      simp only [hx, Bool.false_eq_true, ite_false, Except.ok.injEq] at h
      exact ⟨d, rfl, h.symm⟩

theorem runOps_writes (ft : Faults) (tmp : String) :
    ∀ (files : List (String × String)) (fs : FS) (d0 : Dir),
      (∀ e ∈ files, resolve (tmp ++ "/" ++ e.1) = resolve tmp ++ [e.1]) →
      fs (resolve tmp) = some d0 →
      (runOps ft (files.map (fun e => FsOp.writeFile tmp e.1 e.2)) fs).1 = none →
      (runOps ft (files.map (fun e => FsOp.writeFile tmp e.1 e.2)) fs).2 =
        fun q => if q = resolve tmp then some (writeAll d0 files) else fs q := by
  intro files
  induction files with
  | nil =>
    intro fs d0 _ hd _
    simp only [List.map_nil, runOps, writeAll]
    funext q
    by_cases hq : q = resolve tmp
    · simp [hq, hd]
    · simp [hq]
  | cons e rest ih =>
    intro fs d0 hgood hd hok
    rw [List.map_cons] at hok ⊢
    have hc := runOps_cons_ok hok
    rw [hc.2] at hok ⊢
    obtain ⟨d, hd1, hfs1⟩ := writeFile_ok (hgood e (List.mem_cons_self _ _)) (step_ok hc.1).2
    rw [hd] at hd1
    cases hd1
    have hT : (step ft (FsOp.writeFile tmp e.1 e.2) fs).2 (resolve tmp)
        = some (fun f => if f = e.1 then some e.2 else d0 f) := by
      rw [hfs1]; simp
    rw [ih _ _ (fun x hx => hgood x (List.mem_cons_of_mem _ hx)) hT hok, writeAll]
    funext q
    by_cases hq : q = resolve tmp
    · simp [hq]
    · rw [hfs1]; simp [hq]

theorem removeAll_ok {s : String} {fs fs1 : FS} (hs : s ≠ "")
    (h : (FsOp.removeAll s).run fs = .ok fs1) : fs1 = removeTree (resolve s) fs := by
  simp only [FsOp.run, hs, ite_false] at h
  cases hd : endsWithDot s with
  | true => simp [hd] at h
  | false =>
    simp only [hd, Bool.false_eq_true, ite_false, Except.ok.injEq] at h
    exact h.symm

theorem removeTree_under (p r : Path) (fs : FS) : removeTree p fs (p ++ r) = none := by
  unfold removeTree
  have : p.isPrefixOf (p ++ r) = true := by
    rw [List.isPrefixOf_iff_prefix]; exact List.prefix_append p r
  simp [this]

theorem removeTree_other {p q : Path} (fs : FS) (h1 : ¬ p <+: q) (h2 : ¬ q <+: p) :
    removeTree p fs q = fs q := by
  unfold removeTree
  have hpre : p.isPrefixOf q = false := by
    rw [← Bool.not_eq_true, List.isPrefixOf_iff_prefix]; exact h1
  simp only [hpre, Bool.false_eq_true, ite_false]
  cases hsl : splitLast p with
  | none => rfl
  | some pb =>
    obtain ⟨parent, base⟩ := pb
    have hp := splitLast_eq hsl
    have hne : q ≠ parent := by
      intro e
      apply h2
      rw [e, hp]
      exact List.prefix_append parent [base]
    simp [hne]

theorem rename_ok {s t : String} {fs fs1 : FS} (h : (FsOp.rename s t).run fs = .ok fs1) :
    t ≠ "" ∧ (fs (resolve s)).isSome = true ∧
    (resolve s).isPrefixOf (resolve t) = false ∧
    fs1 = fun q =>
      if (resolve t).isPrefixOf q then fs (resolve s ++ q.drop (resolve t).length)
      else if (resolve s).isPrefixOf q then none
      else fs q := by
  simp only [FsOp.run] at h
  by_cases h0 : s = "" ∨ t = ""
  · simp [h0] at h
  · simp only [h0, ite_false] at h
    have ht : t ≠ "" := fun e => h0 (Or.inr e)
    cases hsrc : fs (resolve s) with
    | none => simp [hsrc] at h
    | some dsrc =>
      simp only [hsrc] at h
      cases hsl : splitLast (resolve t) with
      | none => simp [hsl] at h
      | some pb =>
        obtain ⟨parent, base⟩ := pb
        simp only [hsl] at h
        cases hpar : fs parent with
        | none => simp [hpar] at h
        | some d =>
          simp only [hpar] at h
          cases c1 : (d base).isSome with
          | true => simp [c1] at h
          | false =>
            cases c2 : (fs (resolve t)).isSome with
            | true => simp [c1, c2] at h
            | false =>
              cases c3 : (resolve s).isPrefixOf (resolve t) with
              | true => simp [c1, c2, c3] at h
              | false =>
                simp only [c1, c2, c3, Bool.false_eq_true, ite_false, Except.ok.injEq] at h
                exact ⟨ht, rfl, rfl, h.symm⟩

theorem deferredRemove_other (ft : Faults) (tmp : String) (fs : FS) {q : Path}
    (h1 : ¬ resolve tmp <+: q) (h2 : ¬ q <+: resolve tmp) :
    deferredRemove ft tmp fs q = fs q := by
  have hpre : (resolve tmp).isPrefixOf q = false := by
    rw [← Bool.not_eq_true, List.isPrefixOf_iff_prefix]; exact h1
  unfold deferredRemove step
  cases hf : ft.fails (FsOp.removeAll tmp) with
  | true =>
    simp only [ite_true, FsOp.afterFault]
    by_cases hc : tmp = "" ∨ endsWithDot tmp = true
    · simp [hc]
    · simp [hc, hpre]
  | false =>
    simp only [Bool.false_eq_true, ite_false]
    cases hr : (FsOp.removeAll tmp).run fs with
    | error e => rfl
    | ok fs1 =>
      simp only
      by_cases hs : tmp = ""
      · subst hs
        simp [FsOp.run] at hr
        rw [← hr]
      · rw [removeAll_ok hs hr]
        exact removeTree_other fs h1 h2

theorem apart_ne_empty {outDir : String} {q : Path} (h : apart (resolve outDir) q = true) :
    outDir ≠ "" := by
  intro e
  subst e
  have hr : resolve "" = [] := by decide
  rw [hr] at h
  simp [apart] at h

theorem accepted_names_resolve (env : Env) (tmp : String) (cms : List ConfigMap)
    (hplain : ∀ e ∈ acceptedFiles env cms, plainName e.1 = true) :
    ∀ e ∈ acceptedFiles env cms, resolve (tmp ++ "/" ++ e.1) = resolve tmp ++ [e.1] := by
  rintro ⟨f, c⟩ he
  obtain ⟨cm, _, fn, _, _, hf⟩ := (mem_acceptedFiles env f c cms).mp he
  have hp := hplain (f, c) he
  simp only at hp ⊢
  subst hf
  exact resolve_join_fileName tmp cm fn hp

theorem staged_state (ft : Faults) (tmp : String) (files : List (String × String)) (fs : FS)
    (hgood : ∀ e ∈ files, resolve (tmp ++ "/" ++ e.1) = resolve tmp ++ [e.1])
    (h1 : (step ft (FsOp.mkdirAll tmp) fs).1 = none)
    (h2 : (runOps ft (files.map (fun e => FsOp.writeFile tmp e.1 e.2))
      (step ft (FsOp.mkdirAll tmp) fs).2).1 = none) :
    (runOps ft (files.map (fun e => FsOp.writeFile tmp e.1 e.2))
      (step ft (FsOp.mkdirAll tmp) fs).2).2 (resolve tmp)
        = some (writeAll ((fs (resolve tmp)).getD (fun _ => none)) files) ∧
    ∀ q, ¬ q <+: resolve tmp →
      (runOps ft (files.map (fun e => FsOp.writeFile tmp e.1 e.2))
        (step ft (FsOp.mkdirAll tmp) fs).2).2 q = fs q := by
  have hm := mkdirAll_ok (step_ok h1).2
  rw [runOps_writes ft tmp files _ _ hgood hm.1 h2]
  refine ⟨by simp, fun q hq => ?_⟩
  have hne : q ≠ resolve tmp := fun e => hq (e ▸ List.prefix_rfl)
  simp only [hne, ite_false]
  exact hm.2 q hq

theorem removed_state (ft : Faults) (outDir : String) (fs : FS) (hne : outDir ≠ "")
    (hok : (step ft (FsOp.removeAll outDir) fs).1 = none) :
    (step ft (FsOp.removeAll outDir) fs).2 = removeTree (resolve outDir) fs :=
  removeAll_ok hne (step_ok hok).2

theorem apart_of_swap_ok (ft : Faults) (outDir : String) (fs : FS)
    (hok : (runOps ft [FsOp.removeAll outDir, FsOp.rename (outDir ++ ".tmp") outDir] fs).1
      = none) :
    outDir ≠ "" ∧ apart (resolve outDir) (resolve (outDir ++ ".tmp")) = true := by
  have hc := runOps_cons_ok hok
  rw [hc.2] at hok
  have hmv := (step_ok (runOps_cons_ok hok).1).2
  obtain ⟨hne, hsrc, hnp, _⟩ := rename_ok hmv
  refine ⟨hne, ?_⟩
  rw [removed_state ft outDir fs hne hc.1] at hsrc
  rw [apart_iff]
  constructor
  · intro hpre
    have hnone : removeTree (resolve outDir) fs (resolve (outDir ++ ".tmp")) = none := by
      obtain ⟨r, hr⟩ := hpre
      rw [← hr]
      exact removeTree_under _ _ _
    simp [hnone] at hsrc
  · intro hpre
    rw [List.isPrefixOf_iff_prefix.mpr hpre] at hnp
    cases hnp

theorem swapped_state (ft : Faults) (outDir : String) (fs : FS)
    (hok : (runOps ft [FsOp.removeAll outDir, FsOp.rename (outDir ++ ".tmp") outDir] fs).1
      = none) (r : Path) :
    (runOps ft [FsOp.removeAll outDir, FsOp.rename (outDir ++ ".tmp") outDir] fs).2
      (resolve outDir ++ r) = fs (resolve (outDir ++ ".tmp") ++ r) := by
  obtain ⟨hne, hap⟩ := apart_of_swap_ok ft outDir fs hok
  rw [apart_iff] at hap
  have hc := runOps_cons_ok hok
  rw [hc.2] at hok ⊢
  have hc2 := runOps_cons_ok hok
  rw [hc2.2]
  simp only [runOps]
  rw [(rename_ok (step_ok hc2.1).2).2.2.2, removed_state ft outDir fs hne hc.1]
  have hpre : (resolve outDir).isPrefixOf (resolve outDir ++ r) = true :=
    List.isPrefixOf_iff_prefix.mpr (List.prefix_append _ _)
  simp only [hpre, ite_true, List.drop_left]
  exact removeTree_other fs (not_prefix_append hap.1 hap.2 r) (longer_not_below hap.2 r)

theorem published_after_refresh (env : Env) (ft : Faults) (outDir : String)
    (cms : List ConfigMap) (fs : FS)
    (hplain : ∀ e ∈ acceptedFiles env cms, plainName e.1 = true)
    (h1 : (step ft (FsOp.mkdirAll (outDir ++ ".tmp")) fs).1 = none)
    (h2 : (runOps ft (writeOps env (outDir ++ ".tmp") cms ++
      [FsOp.removeAll outDir, FsOp.rename (outDir ++ ".tmp") outDir])
      (step ft (FsOp.mkdirAll (outDir ++ ".tmp")) fs).2).1 = none) (r : Path) :
    (runOps ft (writeOps env (outDir ++ ".tmp") cms ++
      [FsOp.removeAll outDir, FsOp.rename (outDir ++ ".tmp") outDir])
      (step ft (FsOp.mkdirAll (outDir ++ ".tmp")) fs).2).2 (resolve outDir ++ r) =
      if r = [] then
        some (writeAll ((fs (resolve (outDir ++ ".tmp"))).getD (fun _ => none))
          (acceptedFiles env cms))
      else fs (resolve (outDir ++ ".tmp") ++ r) := by
  have hw := runOps_ok_left ft _ _ _ h2
  rw [runOps_append_ok ft _ _ _ hw] at h2 ⊢
  rw [swapped_state ft outDir _ h2 r]
  have hst := staged_state ft (outDir ++ ".tmp") (acceptedFiles env cms) fs
    (accepted_names_resolve env _ cms hplain) h1 hw
  by_cases hr : r = []
  · subst hr
    simp only [List.append_nil, ite_true]
    exact hst.1
  · simp only [hr, ite_false]
    apply hst.2
    intro hpre
    have hlen := hpre.length_le
    rw [List.length_append] at hlen
    have : r.length = 0 := by omega
    exact hr (List.length_eq_zero.mp this)

theorem acceptedEntries_dropRejected (env : Env) (cm : ConfigMap) :
    ∀ data : List (String × String),
      acceptedEntries env (dropRejected env cm)
        (data.filter (fun e => decide ((env.parse e.2).length = 0)))
        = acceptedEntries env cm data := by
  intro data
  induction data with
  | nil => rfl
  | cons e rest ih =>
    obtain ⟨fn, content⟩ := e
    by_cases hp : (env.parse content).length > 0
    · have hz : ¬ (env.parse content).length = 0 := by omega
      simp only [List.filter_cons, hz, decide_False, Bool.false_eq_true, ite_false]
      rw [ih]
      simp [acceptedEntries, hp]
    · have hz : (env.parse content).length = 0 := by omega
      simp only [List.filter_cons, hz, decide_True, ite_true]
      simp only [acceptedEntries, hp, ite_false, ih]
      rfl

theorem acceptedFiles_dropRejected (env : Env) :
    ∀ cms : List ConfigMap,
      acceptedFiles env (cms.map (dropRejected env)) = acceptedFiles env cms := by
  intro cms
  induction cms with
  | nil => rfl
  | cons cm rest ih =>
    simp only [List.map_cons, acceptedFiles, ih]
    congr 1
    exact acceptedEntries_dropRejected env cm cm.Data

theorem refresh_dropRejected (env : Env) (ft : Faults) (outDir : String)
    (cms : List ConfigMap) (fs : FS) :
    refresh env ft outDir (cms.map (dropRejected env)) fs = refresh env ft outDir cms fs := by
  simp only [refresh, writeOps, acceptedFiles_dropRejected]

theorem refresh_ok_published (env : Env) (ft : Faults) (outDir : String)
    (cms : List ConfigMap) (fs : FS)
    (hplain : ∀ e ∈ acceptedFiles env cms, plainName e.1 = true)
    (hok : (refresh env ft outDir cms fs).1 = none) (r : Path) :
    (refresh env ft outDir cms fs).2 (resolve outDir ++ r) =
      if r = [] then
        some (writeAll ((fs (resolve (outDir ++ ".tmp"))).getD (fun _ => none))
          (acceptedFiles env cms))
      else fs (resolve (outDir ++ ".tmp") ++ r) := by
  simp only [refresh] at hok ⊢
  rcases hm : step ft (FsOp.mkdirAll (outDir ++ ".tmp")) fs with ⟨_ | e, fs1⟩
  · have h1 : (step ft (FsOp.mkdirAll (outDir ++ ".tmp")) fs).1 = none := by rw [hm]
    simp only [hm] at hok ⊢
    have hfs1 : fs1 = (step ft (FsOp.mkdirAll (outDir ++ ".tmp")) fs).2 := by rw [hm]
    rw [hfs1] at hok ⊢
    have hsw := apart_of_swap_ok ft outDir _
      (by
        have hw := runOps_ok_left ft _ _ _ hok
        rw [runOps_append_ok ft _ _ _ hw] at hok
        exact hok)
    have hap := (apart_iff _ _).mp hsw.2
    rw [deferredRemove_other ft _ _ (not_prefix_append hap.2 hap.1 r)
      (longer_not_below hap.1 r)]
    exact published_after_refresh env ft outDir cms fs hplain h1 hok r
  · simp [hm] at hok

/-! ## Change detection and the fingerprint store -/

/-- C1 (no-op stability): for every store and every record list `R` with pairwise
distinct `(namespace, name)` identities, if `updateLastHash R` returns no error then
`configMapsChanged R` on the resulting store returns `(false, nil)`. -/
theorem configMapsChanged_after_updateLastHash (env : Env) (rf : ruleFetcher)
    (R : List ConfigMap) (hnd : (R.map ident).Nodup)
    (hok : (updateLastHash env rf R).1 = none) :
    configMapsChanged env (updateLastHash env rf R).2 R = (false, none) := by
  unfold configMapsChanged
  rw [updateLastHash_count_ok env rf R hok, updateLastHash_lastHash]
  simp only [ne_eq, not_true_eq_false, ite_false]
  rw [updateLastHash_fst] at hok
  exact configMapsChangedLoop_of_match env _ R
    (updateLastHashLoop_ok_lookup env R rf.lastHash hnd hok)

theorem configMapsChanged_after_updateLastHash_witness :
    ([test2, test1].map ident).Nodup ∧
    (updateLastHash sampleEnv (newRuleFetcher "") [test2, test1]).1 = none ∧
    configMapsChanged sampleEnv (updateLastHash sampleEnv (newRuleFetcher "") [test2, test1]).2
      [test2, test1] = (false, none) :=
  ⟨by decide, by decide,
    configMapsChanged_after_updateLastHash sampleEnv (newRuleFetcher "") [test2, test1]
      (by decide) (by decide)⟩

/-- C7 (update postcondition): for every store and every record list `R` with pairwise
distinct identities whose records all serialize, `updateLastHash R` returns no error,
sets `lastConfigMapCount` to `len(R)`, and afterwards `lastHash[r.Namespace][r.Name]` is the
SHA-256 digest of the JSON serialization of `r`, for every record `r` of `R`. -/
theorem updateLastHash_postcondition (env : Env) (rf : ruleFetcher) (R : List ConfigMap)
    (hnd : (R.map ident).Nodup) (hser : ∀ cm ∈ R, ∃ b, env.marshal cm = .ok b) :
    (updateLastHash env rf R).1 = none ∧
    (updateLastHash env rf R).2.lastConfigMapCount = (R.length : Int) ∧
    ∀ cm ∈ R, ∃ b, env.marshal cm = .ok b ∧
      lookupHash (updateLastHash env rf R).2.lastHash cm.Namespace cm.Name
        = some (env.sum256 b) := by
  exact updateLastHash_ok_effect env rf R hnd hser

theorem updateLastHash_postcondition_witness :
    ([test3, test1changed].map ident).Nodup ∧
    (∀ cm ∈ [test3, test1changed], ∃ b, sampleEnv.marshal cm = .ok b) ∧
    lookupHash (updateLastHash sampleEnv (newRuleFetcher "") [test3, test1]).2.lastHash
      "test_namespace_1" "test1" = some (encode test1) ∧
    (updateLastHash sampleEnv (updateLastHash sampleEnv (newRuleFetcher "") [test3, test1]).2
      [test3, test1changed]).2.lastConfigMapCount = 2 ∧
    lookupHash (updateLastHash sampleEnv (updateLastHash sampleEnv (newRuleFetcher "")
      [test3, test1]).2 [test3, test1changed]).2.lastHash "test_namespace_1" "test1"
        = some (encode test1changed) := by
  have hser : ∀ cm ∈ [test3, test1changed], ∃ b, sampleEnv.marshal cm = .ok b :=
    fun cm _ => ⟨encode cm, rfl⟩
  have h := updateLastHash_postcondition sampleEnv
    (updateLastHash sampleEnv (newRuleFetcher "") [test3, test1]).2 [test3, test1changed]
    (by decide) hser
  refine ⟨by decide, hser, by decide, h.2.1, ?_⟩
  obtain ⟨b, hb, hl⟩ := h.2.2 test1changed (by simp)
  cases hb
  exact hl

/-- C10 (change-detector characterisation): for every store and every record list `R`
whose records all serialize, `configMapsChanged R` returns `(true, nil)` exactly when
`len(R)` differs from `lastConfigMapCount` or some record of `R` has no stored digest
under its `(namespace, name)` or a stored digest different from the SHA-256 of its JSON
serialization; in every other case it returns `(false, nil)`, so it never returns an
error. The method assigns no field of its receiver, so its embedding returns no store:
the store after the call is the store before it. -/
theorem configMapsChanged_characterisation (env : Env) (rf : ruleFetcher)
    (R : List ConfigMap) (hser : ∀ cm ∈ R, ∃ b, env.marshal cm = .ok b) :
    (configMapsChanged env rf R = (true, none) ↔
      (rf.lastConfigMapCount ≠ (R.length : Int) ∨
        ∃ cm ∈ R, ∃ b, env.marshal cm = .ok b ∧
          (lookupHash rf.lastHash cm.Namespace cm.Name = none ∨
            ∃ d, lookupHash rf.lastHash cm.Namespace cm.Name = some d ∧ d ≠ env.sum256 b))) ∧
    (configMapsChanged env rf R = (true, none) ∨ configMapsChanged env rf R = (false, none)) := by
  have key : ∀ (cm : ConfigMap) (b : Bytes),
      (lookupHash rf.lastHash cm.Namespace cm.Name = none ∨
        ∃ d, lookupHash rf.lastHash cm.Namespace cm.Name = some d ∧ d ≠ env.sum256 b) ↔
      lookupHash rf.lastHash cm.Namespace cm.Name ≠ some (env.sum256 b) := by
    intro cm b
    cases lookupHash rf.lastHash cm.Namespace cm.Name with
    | none => simp
    | some d => simp
  by_cases hc : rf.lastConfigMapCount = (R.length : Int)
  · by_cases hex : ∃ cm ∈ R, ∃ b, env.marshal cm = .ok b ∧
        lookupHash rf.lastHash cm.Namespace cm.Name ≠ some (env.sum256 b)
    · have hres : configMapsChanged env rf R = (true, none) := by
        unfold configMapsChanged
        simp only [hc, ne_eq, not_true_eq_false, ite_false]
        exact configMapsChangedLoop_of_mismatch env rf.lastHash R hser hex
      refine ⟨⟨fun _ => Or.inr ?_, fun _ => hres⟩, Or.inl hres⟩
      obtain ⟨cm, hcm, b, hb, hne⟩ := hex
      exact ⟨cm, hcm, b, hb, (key cm b).mpr hne⟩
    · have hres : configMapsChanged env rf R = (false, none) := by
        unfold configMapsChanged
        simp only [hc, ne_eq, not_true_eq_false, ite_false]
        apply configMapsChangedLoop_of_match
        intro cm hcm
        obtain ⟨b, hb⟩ := hser cm hcm
        refine ⟨b, hb, ?_⟩
        by_contra hne
        exact hex ⟨cm, hcm, b, hb, hne⟩
      refine ⟨⟨fun h => ?_, fun h => ?_⟩, Or.inr hres⟩
      · rw [hres] at h
        simp at h
      · rcases h with h | ⟨cm, hcm, b, hb, hd⟩
        · exact absurd hc h
        · exact absurd ⟨cm, hcm, b, hb, (key cm b).mp hd⟩ hex
  · have hres : configMapsChanged env rf R = (true, none) := by
      unfold configMapsChanged
      simp [hc]
    exact ⟨⟨fun _ => Or.inl hc, fun _ => hres⟩, Or.inl hres⟩

theorem configMapsChanged_characterisation_witness :
    (∀ cm ∈ [test3, test1], ∃ b, sampleEnv.marshal cm = .ok b) ∧
    configMapsChanged sampleEnv (updateLastHash sampleEnv (newRuleFetcher "") [test2, test1]).2
      [test3, test1] = (true, none) ∧
    lookupHash (updateLastHash sampleEnv (newRuleFetcher "") [test2, test1]).2.lastHash
      "test_namespace_3" "test3" = none := by
  have hser : ∀ cm ∈ [test3, test1], ∃ b, sampleEnv.marshal cm = .ok b :=
    fun cm _ => ⟨encode cm, rfl⟩
  have h := configMapsChanged_characterisation sampleEnv
    (updateLastHash sampleEnv (newRuleFetcher "") [test2, test1]).2 [test3, test1] hser
  refine ⟨hser, h.1.mpr (Or.inr ⟨test3, by simp, encode test3, rfl, Or.inl (by decide)⟩), by decide⟩

/-- C9, counterexample: on the store made by `newRuleFetcher`, `configMapsChanged` of the
empty record list returns `(false, nil)`, not `(true, nil)`: the count `0` equals
`len(cms)` and the loop has nothing to visit. -/
theorem initial_verdict_empty_list_unchanged :
    configMapsChanged sampleEnv (newRuleFetcher "/etc/rules") [] = (false, none) ∧
    configMapsChanged sampleEnv (newRuleFetcher "/etc/rules") [] ≠ (true, none) := by
  decide

/-- C9, amended (initial verdict): on the store made by `newRuleFetcher`, before any
update, `configMapsChanged R` returns `(true, nil)` for every non-empty record list `R`. -/
theorem initial_verdict_changed (env : Env) (outDir : String) (R : List ConfigMap)
    (hne : R ≠ []) :
    configMapsChanged env (newRuleFetcher outDir) R = (true, none) := by
  unfold configMapsChanged newRuleFetcher
  cases R with
  | nil => exact absurd rfl hne
  | cons c rest =>
    have hlen : (0 : Int) ≠ ((c :: rest).length : Int) := by
      simp only [List.length_cons, Nat.cast_add, Nat.cast_one]
      omega
    exact if_pos hlen

theorem initial_verdict_changed_witness :
    [test1] ≠ [] ∧ configMapsChanged sampleEnv (newRuleFetcher "") [test1] = (true, none) :=
  ⟨by decide, initial_verdict_changed sampleEnv "" [test1] (by decide)⟩

/-- C2, the code at the failing input: when record `C` was published by an earlier update,
its digest is still stored after `updateLastHash [A, B]`, so `configMapsChanged [A, C]`
returns `(false, nil)` although `B` has been replaced by `C`. This holds on every store
`rf`, for all records with pairwise distinct identities that serialize. -/
theorem swap_in_undetected_after_earlier_publish (env : Env) (rf : ruleFetcher)
    (A B C : ConfigMap) (hAB : ident A ≠ ident B) (hAC : ident A ≠ ident C)
    (hBC : ident B ≠ ident C)
    (hser : ∀ cm ∈ [A, B, C], ∃ b, env.marshal cm = .ok b) :
    (updateLastHash env rf [C]).1 = none ∧
    (updateLastHash env (updateLastHash env rf [C]).2 [A, B]).1 = none ∧
    configMapsChanged env (updateLastHash env (updateLastHash env rf [C]).2 [A, B]).2 [A, C]
      = (false, none) := by
  have hA := hser A (by simp)
  have hB := hser B (by simp)
  have hC := hser C (by simp)
  have hndC : ([C].map ident).Nodup := by simp
  have hndAB : ([A, B].map ident).Nodup := by simp [hAB]
  have h1 := updateLastHash_ok_effect env rf [C] hndC (by simpa using hC)
  have h2 := updateLastHash_ok_effect env (updateLastHash env rf [C]).2 [A, B] hndAB
    (by
      intro cm hcm
      rcases List.mem_cons.mp hcm with rfl | hcm
      · exact hA
      · rcases List.mem_cons.mp hcm with rfl | hcm
        · exact hB
        · cases hcm)
  refine ⟨h1.1, h2.1, ?_⟩
  unfold configMapsChanged
  rw [h2.2.1]
  simp only [List.length_cons, List.length_nil, ne_eq, not_true_eq_false, ite_false]
  apply configMapsChangedLoop_of_match
  intro cm hcm
  rcases List.mem_cons.mp hcm with rfl | hcm
  · exact h2.2.2 cm (by simp)
  · rcases List.mem_cons.mp hcm with rfl | hcm
    · obtain ⟨b, hb, hl⟩ := h1.2.2 cm (by simp)
      refine ⟨b, hb, ?_⟩
      rw [updateLastHash_lastHash,
        updateLastHashLoop_lookup_other env cm.Namespace cm.Name [A, B] _ ?_]
      · exact hl
      · intro c hc
        rcases List.mem_cons.mp hc with rfl | hc
        · exact hAC
        · rcases List.mem_cons.mp hc with rfl | hc
          · exact hBC
          · cases hc
    · cases hcm

theorem swap_in_undetected_after_earlier_publish_witness :
    (ident test1 ≠ ident test2 ∧ ident test1 ≠ ident test3 ∧ ident test2 ≠ ident test3) ∧
    configMapsChanged sampleEnv
      (updateLastHash sampleEnv (updateLastHash sampleEnv (newRuleFetcher "") [test3]).2
        [test1, test2]).2 [test1, test3] = (false, none) :=
  ⟨by decide,
    (swap_in_undetected_after_earlier_publish sampleEnv (newRuleFetcher "") test1 test2 test3
      (by decide) (by decide) (by decide) (fun cm _ => ⟨encode cm, rfl⟩)).2.2⟩

/-- C3, the code at the failing input: `updateLastHash R` leaves the digest lookup of every
identity that no record of `R` carries exactly as it was before the call, whether the
call succeeds or not; a digest stored by an earlier update is therefore still there. -/
theorem updateLastHash_keeps_stale_digests (env : Env) (rf : ruleFetcher)
    (R : List ConfigMap) (ns name : String) (hout : ∀ cm ∈ R, ident cm ≠ (ns, name)) :
    lookupHash (updateLastHash env rf R).2.lastHash ns name = lookupHash rf.lastHash ns name := by
  rw [updateLastHash_lastHash]
  exact updateLastHashLoop_lookup_other env ns name R rf.lastHash hout

theorem updateLastHash_keeps_stale_digests_witness :
    (∀ cm ∈ [test3, test1], ident cm ≠ ("test_namespace_1", "test2")) ∧
    (updateLastHash sampleEnv (updateLastHash sampleEnv (newRuleFetcher "") [test2, test1]).2
      [test3, test1]).1 = none ∧
    lookupHash (updateLastHash sampleEnv
      (updateLastHash sampleEnv (newRuleFetcher "") [test2, test1]).2 [test3, test1]).2.lastHash
      "test_namespace_1" "test2" = some (encode test2) := by
  have hout : ∀ cm ∈ [test3, test1], ident cm ≠ ("test_namespace_1", "test2") := by decide
  refine ⟨hout, by decide, ?_⟩
  rw [updateLastHash_keeps_stale_digests sampleEnv _ [test3, test1] _ _ hout]
  decide

/-- C6, counterexample: with a first record that serializes and a second one that does
not, `updateLastHash` returns an error and has already stored the digest of the first
record, so `lastHash` is not as it was before the call. -/
theorem updateLastHash_partial_write_on_error :
    (∃ cm ∈ [test1, broken], ∃ e, brittleEnv.marshal cm = .error e) ∧
    (updateLastHash brittleEnv (newRuleFetcher "") [test1, broken]).1 ≠ none ∧
    lookupHash (newRuleFetcher "").lastHash "test_namespace_1" "test1" = none ∧
    lookupHash (updateLastHash brittleEnv (newRuleFetcher "") [test1, broken]).2.lastHash
      "test_namespace_1" "test1" = some (encode test1) ∧
    (updateLastHash brittleEnv (newRuleFetcher "") [test1, broken]).2.lastHash
      ≠ (newRuleFetcher "").lastHash := by
  refine ⟨⟨broken, by simp, _, rfl⟩, by decide, by decide, by decide, ?_⟩
  intro h
  have h2 := congrArg (fun m => lookupHash m "test_namespace_1" "test1") h
  revert h2
  decide

/-- C6, amended (update on error): for every store and every record list `R` in which the
serialization of at least one record fails, `updateLastHash R` returns an error and leaves
`lastConfigMapCount` as it was; `lastHash` is what the loop made of it on the records that
precede the first failing record, so the digest lookup of every identity that none of
those records carries is as before, and `lastHash` is exactly as before when the first
record of `R` is the failing one. -/
theorem updateLastHash_error_effect (env : Env) (rf : ruleFetcher) (R : List ConfigMap)
    (hfail : ∃ cm ∈ R, ∃ e, env.marshal cm = .error e) :
    (updateLastHash env rf R).1 ≠ none ∧
    (updateLastHash env rf R).2.lastConfigMapCount = rf.lastConfigMapCount ∧
    ∃ pre bad post, R = pre ++ bad :: post ∧
      (∀ cm ∈ pre, ∃ b, env.marshal cm = .ok b) ∧ (∃ e, env.marshal bad = .error e) ∧
      (updateLastHash env rf R).2.lastHash = (updateLastHashLoop env rf.lastHash pre).2 ∧
      (pre = [] → (updateLastHash env rf R).2.lastHash = rf.lastHash) ∧
      ∀ ns name, (∀ cm ∈ pre, ident cm ≠ (ns, name)) →
        lookupHash (updateLastHash env rf R).2.lastHash ns name
          = lookupHash rf.lastHash ns name := by
  obtain ⟨pre, bad, post, hR, hpre, e, hbad⟩ := exists_first_failing env R hfail
  have hloop := updateLastHashLoop_append_error env bad post e hbad pre rf.lastHash hpre
  have herr : (updateLastHash env rf R).1 ≠ none := by
    rw [updateLastHash_fst, hR, hloop]
    simp
  have hlast : (updateLastHash env rf R).2.lastHash = (updateLastHashLoop env rf.lastHash pre).2 := by
    rw [updateLastHash_lastHash, hR, hloop]
  refine ⟨herr, updateLastHash_count_err env rf R herr, pre, bad, post, hR, hpre, ⟨e, hbad⟩,
    hlast, ?_, ?_⟩
  · intro hnil
    rw [hlast, hnil]
    rfl
  · intro ns name hout
    rw [hlast]
    exact updateLastHashLoop_lookup_other env ns name pre rf.lastHash hout

theorem updateLastHash_error_effect_witness :
    (∃ cm ∈ [test1, broken], ∃ e, brittleEnv.marshal cm = .error e) ∧
    (updateLastHash brittleEnv (newRuleFetcher "") [test1, broken]).1 ≠ none ∧
    (updateLastHash brittleEnv (newRuleFetcher "") [test1, broken]).2.lastConfigMapCount = 0 :=
  have hfail : ∃ cm ∈ [test1, broken], ∃ e, brittleEnv.marshal cm = .error e :=
    ⟨broken, by simp, _, rfl⟩
  ⟨hfail, (updateLastHash_error_effect brittleEnv (newRuleFetcher "") [test1, broken] hfail).1,
    (updateLastHash_error_effect brittleEnv (newRuleFetcher "") [test1, broken] hfail).2.1⟩

/-! ## One tick -/

/-- C4 (reconciler gating): after one `Refresh` tick the receiver (with `lastHash` and
`lastConfigMapCount`) is the one before the tick whenever listing fails, change detection
fails or reports unchanged, `refresh` fails, the reload call returns a transport error, or
the reload status is not 200. Only when `refresh` succeeded and the status is 200 is the
receiver the result of `updateLastHash` on the listed records, which are the records
`refresh` published. -/
theorem Refresh_store_gating (env : Env) (ft : Faults)
    (listed : Except String (List ConfigMap)) (post : Except String Int)
    (rf : ruleFetcher) (fs : FS) :
    (∀ err, listed = .error err → (Refresh env ft listed post rf fs).2.1 = rf) ∧
    (∀ cms, listed = .ok cms →
      ((configMapsChanged env rf cms).2 ≠ none →
        (Refresh env ft listed post rf fs).2.1 = rf) ∧
      (configMapsChanged env rf cms = (false, none) →
        (Refresh env ft listed post rf fs).2.1 = rf) ∧
      (configMapsChanged env rf cms = (true, none) →
        ((refresh env ft rf.outDir cms fs).1 ≠ none →
          (Refresh env ft listed post rf fs).2.1 = rf) ∧
        ((refresh env ft rf.outDir cms fs).1 = none →
          ((∀ err, post = .error err → (Refresh env ft listed post rf fs).2.1 = rf) ∧
           (∀ status, post = .ok status → status ≠ 200 →
              (Refresh env ft listed post rf fs).2.1 = rf) ∧
           (post = .ok 200 →
              (Refresh env ft listed post rf fs).2.1 = (updateLastHash env rf cms).2 ∧
              (Refresh env ft listed post rf fs).2.2
                = (refresh env ft rf.outDir cms fs).2))))) := by
  refine ⟨fun err h => by subst h; rfl, fun cms h => ?_⟩
  subst h
  refine ⟨fun hne => ?_, fun hf => ?_, fun ht => ⟨fun hpub => ?_, fun hpub => ⟨?_, ?_, ?_⟩⟩⟩
  · rcases hc : configMapsChanged env rf cms with ⟨b, _ | e⟩
    · rw [hc] at hne
      exact absurd rfl hne
    · simp only [Refresh, hc]
  · simp only [Refresh, hf]
  · rcases hr : refresh env ft rf.outDir cms fs with ⟨_ | e, fs1⟩
    · rw [hr] at hpub
      exact absurd rfl hpub
    · simp only [Refresh, ht, hr]
  · intro err hp
    subst hp
    rcases hr : refresh env ft rf.outDir cms fs with ⟨_ | e, fs1⟩ <;>
      simp only [Refresh, ht, hr]
  · intro status hp hst
    subst hp
    rcases hr : refresh env ft rf.outDir cms fs with ⟨_ | e, fs1⟩
    · simp only [Refresh, ht, hr, hst, ne_eq, not_false_eq_true, ite_true]
    · simp only [Refresh, ht, hr]
  · intro hp
    subst hp
    rcases hr : refresh env ft rf.outDir cms fs with ⟨_ | e, fs1⟩
    · rcases hu : updateLastHash env rf cms with ⟨_ | e, rf1⟩ <;>
        simp only [Refresh, ht, hr, hu, ne_eq, not_true_eq_false, ite_false, and_self]
    · rw [hr] at hpub
      cases hpub

/-! ## The publish step -/

/-- C5, amended (publish in steps): let the staging directory and the published directory
be apart (neither is the other or lies inside it) and let no accepted file name hold a path
separator. When `refresh` has completed `k` of its filesystem steps (create staging, write
the `n` accepted files, remove published, rename staging), the published directory and
everything below it are exactly as before the call for `k ≤ n + 1` (every point up to the
remove step), do not exist for `k = n + 2` (after the remove step and before the rename),
and are the complete staged directory for `k ≥ n + 3`. -/
theorem published_dir_during_refresh (env : Env) (outDir : String) (cms : List ConfigMap)
    (fs : FS) (k : Nat) (r : Path)
    (hapart : apart (resolve outDir) (resolve (outDir ++ ".tmp")) = true)
    (hplain : ∀ e ∈ acceptedFiles env cms, plainName e.1 = true)
    (hdone : (runOps noFault ((refreshOps env outDir cms).take k) fs).1 = none) :
    stateAfter env outDir cms fs k (resolve outDir ++ r) =
      if k ≤ (acceptedFiles env cms).length + 1 then fs (resolve outDir ++ r)
      else if k = (acceptedFiles env cms).length + 2 then none
      else if r = [] then
        some (writeAll ((fs (resolve (outDir ++ ".tmp"))).getD (fun _ => none))
          (acceptedFiles env cms))
      else fs (resolve (outDir ++ ".tmp") ++ r) := by
  have hne := apart_ne_empty hapart
  rw [apart_iff] at hapart
  cases k with
  | zero => simp [stateAfter, runOps]
  | succ j =>
    unfold stateAfter
    unfold refreshOps at hdone ⊢
    rw [List.take_succ_cons] at hdone ⊢
    have hc := runOps_cons_ok hdone
    rw [hc.2] at hdone ⊢
    have hlen : (writeOps env (outDir ++ ".tmp") cms).length = (acceptedFiles env cms).length := by
      simp [writeOps]
    have hgood := accepted_names_resolve env (outDir ++ ".tmp") cms hplain
    by_cases h1 : j ≤ (acceptedFiles env cms).length
    · rw [List.take_append_of_le_length (by omega)] at hdone ⊢
      unfold writeOps at hdone ⊢
      rw [← List.map_take] at hdone ⊢
      have hst := staged_state noFault (outDir ++ ".tmp") ((acceptedFiles env cms).take j) fs
        (fun e he => hgood e (List.mem_of_mem_take he)) hc.1 hdone
      rw [hst.2 _ (longer_not_below hapart.1 r)]
      simp [h1]
    · by_cases h2 : j = (acceptedFiles env cms).length + 1
      · have htake : (writeOps env (outDir ++ ".tmp") cms ++
            [FsOp.removeAll outDir, FsOp.rename (outDir ++ ".tmp") outDir]).take j
            = writeOps env (outDir ++ ".tmp") cms ++ [FsOp.removeAll outDir] := by
          rw [h2, ← hlen, List.take_append]
          rfl
        rw [htake] at hdone ⊢
        have hw := runOps_ok_left noFault _ _ _ hdone
        rw [runOps_append_ok noFault _ _ _ hw] at hdone ⊢
        have hc2 := runOps_cons_ok hdone
        rw [hc2.2]
        simp only [runOps]
        rw [removed_state noFault outDir _ hne hc2.1, removeTree_under]
        simp [h2]
      · have htake : (writeOps env (outDir ++ ".tmp") cms ++
            [FsOp.removeAll outDir, FsOp.rename (outDir ++ ".tmp") outDir]).take j
            = writeOps env (outDir ++ ".tmp") cms ++
              [FsOp.removeAll outDir, FsOp.rename (outDir ++ ".tmp") outDir] := by
          apply List.take_of_length_le
          simp only [List.length_append, hlen, List.length_cons, List.length_nil]
          omega
        rw [htake] at hdone ⊢
        rw [published_after_refresh env noFault outDir cms fs hplain hc.1 hdone r]
        have h3 : ¬ (j + 1 ≤ (acceptedFiles env cms).length + 1) := by omega
        have h4 : ¬ (j + 1 = (acceptedFiles env cms).length + 2) := by omega
        simp [h3, h4]

theorem published_dir_during_refresh_witness :
    apart (resolve "/etc/rules") (resolve ("/etc/rules" ++ ".tmp")) = true ∧
    (∀ e ∈ acceptedFiles sampleEnv [mixedRecord], plainName e.1 = true) ∧
    (runOps noFault ((refreshOps sampleEnv "/etc/rules" [mixedRecord]).take 2) publishedFS).1
      = none ∧
    stateAfter sampleEnv "/etc/rules" [mixedRecord] publishedFS 2 (resolve "/etc/rules" ++ [])
      = publishedFS (resolve "/etc/rules" ++ []) := by
  have h := published_dir_during_refresh sampleEnv "/etc/rules" [mixedRecord] publishedFS 2 []
    (by decide) (by decide) (by decide)
  rw [if_pos (by decide)] at h
  exact ⟨by decide, by decide, by decide, h⟩

/-- C5, counterexample: with `/etc/rules` holding a published file, after three of the four
filesystem steps of `refresh` (staging created, one file written, published directory
removed; the rename not yet done) the published directory does not exist, so it does not
hold the previous publish; when the rename then fails, `refresh` returns an error and the
published directory is still missing. Further, with `outDir` given as `/etc/rules/` the
first step creates the staging directory inside the published one, and an entry name with
`..` makes the write step put a file into the published directory. -/
theorem published_dir_missing_before_rename :
    ((publishedFS ["etc", "rules"]).bind (fun d => d "old.rules") = some "groups: old" ∧
      3 < (refreshOps sampleEnv "/etc/rules" [mixedRecord]).length ∧
      (runOps noFault ((refreshOps sampleEnv "/etc/rules" [mixedRecord]).take 3)
        publishedFS).1 = none ∧
      (stateAfter sampleEnv "/etc/rules" [mixedRecord] publishedFS 3 ["etc", "rules"]).isNone
        = true ∧
      (refresh sampleEnv renameFails "/etc/rules" [mixedRecord] publishedFS).1 ≠ none ∧
      ((refresh sampleEnv renameFails "/etc/rules" [mixedRecord] publishedFS).2
        ["etc", "rules"]).isNone = true) ∧
    ((publishedFS ["etc", "rules", ".tmp"]).isNone = true ∧
      (stateAfter sampleEnv "/etc/rules/" [mixedRecord] publishedFS 1
        ["etc", "rules", ".tmp"]).isSome = true) ∧
    ((publishedFS ["etc", "rules"]).bind (fun d => d "evil.rules") = none ∧
      (stateAfter sampleEnv "/etc/rules" [escaping] publishedFS 2 ["etc", "rules"]).bind
        (fun d => d "evil.rules") = some "groups: []") := by
  decide

/-- C8, counterexample: (1) when the staging directory exists already and holds a file,
`refresh` returns without error and the published directory holds that file, which is
the file of no accepted entry; (2) when two accepted entries get the same file name, the
published file holds the content of the later one only; (3) when an accepted entry name
holds path separators, `refresh` returns without error and the published directory holds
no file of that name. -/
theorem refresh_publishes_stale_staging_file :
    ((refresh sampleEnv noFault "/etc/rules" [mixedRecord] staleStagingFS).1 = none ∧
      ((refresh sampleEnv noFault "/etc/rules" [mixedRecord] staleStagingFS).2
        ["etc", "rules"]).bind (fun d => d "stale.rules") = some "groups: stale" ∧
      acceptedFiles sampleEnv [mixedRecord] = [("monitoring_rules_good.rules", "groups: []")]) ∧
    ((refresh sampleEnv noFault "/etc/rules" [collideA, collideB] publishedFS).1 = none ∧
      acceptedFiles sampleEnv [collideA, collideB] =
        [("team_a_rules_x.rules", "groups: []"), ("team_a_rules_x.rules", "")] ∧
      ((refresh sampleEnv noFault "/etc/rules" [collideA, collideB] publishedFS).2
        ["etc", "rules"]).bind (fun d => d "team_a_rules_x.rules") = some "") ∧
    ((refresh sampleEnv noFault "/etc/rules" [escaping] publishedFS).1 = none ∧
      acceptedFiles sampleEnv [escaping] =
        [("monitoring_rules_x/../../rules/evil.rules", "groups: []")] ∧
      ((refresh sampleEnv noFault "/etc/rules" [escaping] publishedFS).2
        ["etc", "rules"]).isSome = true ∧
      ((refresh sampleEnv noFault "/etc/rules" [escaping] publishedFS).2
        ["etc", "rules"]).bind (fun d => d "monitoring_rules_x/../../rules/evil.rules")
          = none) := by
  decide

/-- C8, amended (invalid-entry isolation): for every record list and every initial
filesystem in which the staging directory `outDir + ".tmp"` is missing or holds nothing,
when the accepted entries get pairwise distinct file names without path separator and
`refresh` returns without error, the published directory afterwards holds exactly the
files of the entries the validator accepts, each named
`<namespace>_<name>_<entryFileName>` and holding that entry's raw content, no other file
and no subdirectory. A rejected entry produces no file and does not make `refresh` fail:
`refresh` returns the same error and leaves the same filesystem as on the records without
their rejected entries. -/
theorem refresh_publishes_accepted_entries (env : Env) (ft : Faults)
    (outDir : String) (cms : List ConfigMap) (fs : FS)
    (hplain : ∀ e ∈ acceptedFiles env cms, plainName e.1 = true)
    (hstage : ∀ r d, fs (resolve (outDir ++ ".tmp") ++ r) = some d →
      r = [] ∧ ∀ f, d f = none)
    (hnames : ((acceptedFiles env cms).map Prod.fst).Nodup) :
    refresh env ft outDir (cms.map (dropRejected env)) fs = refresh env ft outDir cms fs ∧
    ((refresh env ft outDir cms fs).1 = none →
      (∃ d, (refresh env ft outDir cms fs).2 (resolve outDir) = some d ∧
        ∀ f c, d f = some c ↔
          ∃ cm ∈ cms, ∃ fn, (fn, c) ∈ cm.Data ∧ (env.parse c).length = 0 ∧
            f = fileName cm fn) ∧
      ∀ r, r ≠ [] → (refresh env ft outDir cms fs).2 (resolve outDir ++ r) = none) := by
  refine ⟨refresh_dropRejected env ft outDir cms fs, fun hok => ⟨?_, fun r hr => ?_⟩⟩
  · have hp := refresh_ok_published env ft outDir cms fs hplain hok []
    rw [List.append_nil, if_pos rfl] at hp
    refine ⟨_, hp, fun f c => ?_⟩
    rw [writeAll_lookup f c _ _ hnames, ← mem_acceptedFiles]
    have hempty : (fs (resolve (outDir ++ ".tmp"))).getD (fun _ => none) f = none := by
      cases hd : fs (resolve (outDir ++ ".tmp")) with
      | none => rfl
      | some d => exact (hstage [] d (by rw [List.append_nil]; exact hd)).2 f
    simp [hempty]
  · rw [refresh_ok_published env ft outDir cms fs hplain hok r, if_neg hr]
    cases hd : fs (resolve (outDir ++ ".tmp") ++ r) with
    | none => rfl
    | some d => exact absurd (hstage r d hd).1 hr

theorem refresh_publishes_accepted_entries_witness :
    (∀ e ∈ acceptedFiles sampleEnv [mixedRecord], plainName e.1 = true) ∧
    (∀ r d, publishedFS (resolve ("/etc/rules" ++ ".tmp") ++ r) = some d →
      r = [] ∧ ∀ f, d f = none) ∧
    ((acceptedFiles sampleEnv [mixedRecord]).map Prod.fst).Nodup ∧
    (refresh sampleEnv noFault "/etc/rules" [mixedRecord] publishedFS).1 = none ∧
    (∃ d, (refresh sampleEnv noFault "/etc/rules" [mixedRecord] publishedFS).2
        (resolve "/etc/rules") = some d ∧
      ∀ f c, d f = some c ↔
        ∃ cm ∈ [mixedRecord], ∃ fn, (fn, c) ∈ cm.Data ∧ (sampleEnv.parse c).length = 0 ∧
          f = fileName cm fn) ∧
    ((refresh sampleEnv noFault "/etc/rules" [mixedRecord] publishedFS).2
      ["etc", "rules"]).bind (fun d => d "monitoring_rules_good.rules") = some "groups: []" ∧
    ((refresh sampleEnv noFault "/etc/rules" [mixedRecord] publishedFS).2
      ["etc", "rules"]).bind (fun d => d "monitoring_rules_bad.rules") = none := by
  have hstage : ∀ r d, publishedFS (resolve ("/etc/rules" ++ ".tmp") ++ r) = some d →
      r = [] ∧ ∀ f, d f = none := by
    intro r d hd
    have hres : resolve ("/etc/rules" ++ ".tmp") = ["etc", "rules.tmp"] := by decide
    rw [hres] at hd
    simp [publishedFS] at hd
  exact ⟨by decide, hstage, by decide, by decide,
    ((refresh_publishes_accepted_entries sampleEnv noFault "/etc/rules" [mixedRecord]
      publishedFS (by decide) hstage (by decide)).2 (by decide)).1,
    by decide, by decide⟩

/-- A run of `Refresh_store_gating` on concrete ticks: a tick whose reload answers 200
stores the digest of the listed record, a tick whose reload answers 500 and a tick whose
publish step fails leave the store as it was. -/
theorem Refresh_store_gating_witness :
    lookupHash (Refresh sampleEnv noFault (.ok [test1]) (.ok 200)
      (newRuleFetcher "/etc/rules") publishedFS).2.1.lastHash "test_namespace_1" "test1"
        = some (encode test1) ∧
    (Refresh sampleEnv noFault (.ok [test1]) (.ok 500)
      (newRuleFetcher "/etc/rules") publishedFS).2.1 = newRuleFetcher "/etc/rules" ∧
    (Refresh sampleEnv renameFails (.ok [test1]) (.ok 200)
      (newRuleFetcher "/etc/rules") publishedFS).2.1 = newRuleFetcher "/etc/rules" := by
  have h200 := ((Refresh_store_gating sampleEnv noFault (.ok [test1]) (.ok 200)
    (newRuleFetcher "/etc/rules") publishedFS).2 [test1] rfl).2.2 (by decide)
  have h500 := ((Refresh_store_gating sampleEnv noFault (.ok [test1]) (.ok 500)
    (newRuleFetcher "/etc/rules") publishedFS).2 [test1] rfl).2.2 (by decide)
  have hfail := ((Refresh_store_gating sampleEnv renameFails (.ok [test1]) (.ok 200)
    (newRuleFetcher "/etc/rules") publishedFS).2 [test1] rfl).2.2 (by decide)
  refine ⟨?_, (h500.2 (by decide)).2.1 500 rfl (by decide), hfail.1 (by decide)⟩
  rw [((h200.2 (by decide)).2.2 rfl).1]
  decide

end PromRuleReloader
